import Mathlib

/-!
Shallow embedding of the algorithmic kernel of `src/anim.py`
(Watts–Strogatz small-world animation): ring-lattice construction,
random edge rewiring, and breadth-first shortest-path search.

Python dicts of sets are modelled as functions `Nat → Finset Nat`
(the node-indexed adjacency map) together with a `Finset (Nat × Nat)`
of canonical edge keys (the key set of `edge_map`; the mapped-to manim
arc objects are irrelevant to the graph algorithms and are dropped).
Python's set iteration (used only by BFS neighbor enumeration) is
modelled by neighbor lists `Nat → List Nat`: a set together with its
implementation-defined enumeration order.  The global random generator
is modelled by explicit inputs: the shuffled edge list is a parameter,
and `random.choice` draws consume a stream of naturals, the draw picking
index `r % length` of the candidate list.
-/

namespace Anim

/-- Graph state of the script: the key set of `edge_map` plus the
`adjacency` dict (lines 33–34 of `anim.py`). -/
structure RWState where
  edgeMap : Finset (Nat × Nat)
  adj : Nat → Finset Nat

/-- Canonical edge key `(min i j, max i j)` as computed at lines 40, 86. -/
def canonKey (i j : Nat) : Nat × Nat := (min i j, max i j)

/-- Model of `adjacency[i].add(t); adjacency[t].add(i)` (lines 53–54, 93–94),
performed sequentially as in Python. -/
def addBoth (A : Nat → Finset Nat) (i t : Nat) : Nat → Finset Nat :=
  let A1 := Function.update A i (insert t (A i))
  Function.update A1 t (insert i (A1 t))

/-- Model of `adjacency[a].discard(b); adjacency[b].discard(a)` (lines 79–80),
performed sequentially as in Python. -/
def removeBoth (A : Nat → Finset Nat) (a b : Nat) : Nat → Finset Nat :=
  let A1 := Function.update A a ((A a).erase b)
  Function.update A1 b ((A1 b).erase a)

/-! ### Lattice builder (anim.py lines 33–54) -/

/-- The `(i, (i+hop) % N)` pairs processed by the nested build loop
(lines 37–39), in loop order: for each `i < n`, hops 1 then 2. -/
def buildPairs (n : Nat) : List (Nat × Nat) :=
  (List.range n).flatMap (fun i => [(i, (i + 1) % n), (i, (i + 2) % n)])

/-- One iteration of the lattice build loop (lines 40–54): canonicalize
the key, skip when already present, otherwise record the key and add
the edge to the adjacency map in both directions. -/
def buildStep (st : RWState) (it : Nat × Nat) : RWState :=
  if canonKey it.1 it.2 ∈ st.edgeMap then st
  else ⟨insert (canonKey it.1 it.2) st.edgeMap, addBoth st.adj it.1 it.2⟩

/-- The lattice construction: fold the build loop over all pairs starting
from the empty `adjacency`/`edge_map` of lines 33–34. -/
def buildLattice (n : Nat) : RWState :=
  (buildPairs n).foldl buildStep ⟨∅, fun _ => ∅⟩

/-- The direct per-node lattice adjacency of line 129:
`{(i+1)%N, (i-1)%N, (i+2)%N, (i-2)%N}`, with Python's nonnegative
`%` on negatives rendered as `(i + n - h) % n`. -/
def latticeAdj (n i : Nat) : Finset Nat :=
  {(i + 1) % n, (i + n - 1) % n, (i + 2) % n, (i + n - 2) % n}

/-! ### Rewirer (anim.py lines 63–94) -/

/-- Model of `num_rewires = int(total_edges * rewire_fraction)` (lines 63–64);
`int()` truncates, and for a nonnegative product truncation is `⌊·⌋`. -/
def numRewires (st : RWState) (frac : ℚ) : Nat :=
  (Int.floor ((st.edgeMap.card : ℚ) * frac)).toNat

/-- Edge removal of lines 76–80: drop the key from `edge_map` and the
edge from both adjacency sets. -/
def removeEdge (st : RWState) (a b : Nat) : RWState :=
  ⟨st.edgeMap.erase (a, b), removeBoth st.adj a b⟩

/-- Model of line 82:
`possible_targets = [x for x in range(N) if x != a and x not in adjacency[a]]`. -/
def possibleTargets (N : Nat) (A : Nat → Finset Nat) (a : Nat) : List Nat :=
  (List.range N).filter (fun x => x ≠ a ∧ x ∉ A a)

/-- Edge insertion of lines 92–94: record the canonical key and add the
edge to both adjacency sets. -/
def addEdge (st : RWState) (a t : Nat) : RWState :=
  ⟨insert (canonKey a t) st.edgeMap, addBoth st.adj a t⟩

/-- Model of `new_target = random.choice(possible_targets)` (line 85): one draw of
the random source selects index `r % len` of the candidate list, `r` being
the next value of the stream. -/
def chooseTarget (N : Nat) (A : Nat → Finset Nat) (a : Nat) (rng : List Nat) : Nat :=
  (possibleTargets N A a).getD (rng.headD 0 % (possibleTargets N A a).length) 0

/-- One iteration of the rewiring loop (lines 72–94) for candidate
`(a, b)`, threading the stream of `random.choice` draws: skip a consumed
edge; remove the edge; skip when no target is possible; draw a target;
skip when the new canonical key already exists; otherwise add the edge. -/
def rewireStep (N : Nat) (st : RWState) (rng : List Nat) (ab : Nat × Nat) :
    RWState × List Nat :=
  if (ab.1, ab.2) ∈ st.edgeMap then
    if possibleTargets N (removeEdge st ab.1 ab.2).adj ab.1 = [] then
      (removeEdge st ab.1 ab.2, rng)
    else
      if canonKey ab.1 (chooseTarget N (removeEdge st ab.1 ab.2).adj ab.1 rng)
          ∈ (removeEdge st ab.1 ab.2).edgeMap then
        (removeEdge st ab.1 ab.2, rng.tail)
      else
        (addEdge (removeEdge st ab.1 ab.2) ab.1
          (chooseTarget N (removeEdge st ab.1 ab.2).adj ab.1 rng), rng.tail)
  else (st, rng)

/-- The rewiring loop over the chosen candidates (line 72). -/
def rewireLoop (N : Nat) : List (Nat × Nat) → RWState → List Nat → RWState
  | [], st, _ => st
  | ab :: rest, st, rng =>
      let sr := rewireStep N st rng ab
      rewireLoop N rest sr.1 sr.2

/-- The whole rewiring procedure (lines 63–94): take the first
`num_rewires` edges of the shuffled edge list and run the loop. -/
def rewire (N : Nat) (st : RWState) (shuffled : List (Nat × Nat))
    (frac : ℚ) (rng : List Nat) : RWState :=
  rewireLoop N (shuffled.take (numRewires st frac)) st rng

/-! ### Well-formedness predicates (spec §3 invariants) -/

/-- Symmetry of an adjacency map: `j ∈ adjacency[i]` iff `i ∈ adjacency[j]`. -/
def Symm (A : Nat → Finset Nat) : Prop := ∀ i j, j ∈ A i ↔ i ∈ A j

/-- No self-loops: `i ∉ adjacency[i]`. -/
def NoSelf (A : Nat → Finset Nat) : Prop := ∀ i, i ∉ A i

/-- The `edge_map` key set and the adjacency map describe the same graph:
the canonical key is present iff the edge is. -/
def Sync (E : Finset (Nat × Nat)) (A : Nat → Finset Nat) : Prop :=
  ∀ i j, canonKey i j ∈ E ↔ j ∈ A i

/-- All stored edge keys are canonical (first component ≤ second). -/
def Canon (E : Finset (Nat × Nat)) : Prop := ∀ p ∈ E, p.1 ≤ p.2

/-- Combined graph well-formedness of the script state. -/
def WF (st : RWState) : Prop :=
  Sync st.edgeMap st.adj ∧ NoSelf st.adj ∧ Canon st.edgeMap

/-! ### Breadth-first search (anim.py lines 112–125 and 130–143) -/

/-- The neighbor iteration of lines 121–124: walk the enumeration of
`adjacency[node]`, and for each unvisited neighbor mark it visited and
append the extended path; returns the appended paths (in order) and the
updated visited set. -/
def expand (p : List Nat) : List Nat → Finset Nat → List (List Nat) × Finset Nat
  | [], vis => ([], vis)
  | v :: vs, vis =>
      if v ∈ vis then expand p vs vis
      else ((p ++ [v]) :: (expand p vs (insert v vis)).1,
        (expand p vs (insert v vis)).2)

/-- The BFS loop of lines 116–125, with explicit fuel bounding the number
of dequeues (the loop itself performs finitely many; see the termination
theorem): pop the front path, return it when its last node is the goal,
otherwise enqueue the extensions by unvisited neighbors. -/
def bfsAux (adj : Nat → List Nat) (goal : Nat) :
    Nat → List (List Nat) → Finset Nat → List Nat
  | 0, _, _ => []
  | _ + 1, [], _ => []
  | fuel + 1, p :: rest, vis =>
      if p.getLastD 0 = goal then p
      else
        bfsAux adj goal fuel
          (rest ++ (expand p (adj (p.getLastD 0)) vis).1)
          (expand p (adj (p.getLastD 0)) vis).2

/-- Model of `bfs_path(start, goal)` (lines 112–125): queue seeded with `[start]`,
visited seeded with `{start}`. -/
def bfsPath (adj : Nat → List Nat) (fuel start goal : Nat) : List Nat :=
  bfsAux adj goal fuel [[start]] {start}

/-- Neighbor enumeration of the line-129 lattice adjacency, in the order
the set literal is written (Python set enumeration order is
implementation-defined; BFS path length is order-independent). -/
def latticeAdjList (n i : Nat) : List Nat :=
  [(i + 1) % n, (i + n - 1) % n, (i + 2) % n, (i + n - 2) % n]

/-- Directed edge relation read off an adjacency enumeration. -/
def EdgeRel (adj : Nat → List Nat) (u v : Nat) : Prop := v ∈ adj u

/-- The list `r` is a (nonempty) walk in `adj` starting at `s`. -/
def ValidFrom (adj : Nat → List Nat) (s : Nat) (r : List Nat) : Prop :=
  r.head? = some s ∧ List.Chain' (EdgeRel adj) r

/-- Fuel sufficient for BFS from a queue/visited state over a vertex set
`U` closed under adjacency: queue length plus unvisited vertices. -/
def bfsMeasure (U : Finset Nat) (q : List (List Nat)) (vis : Finset Nat) : Nat :=
  q.length + (U \ vis).card

instance (adj : Nat → List Nat) (u v : Nat) : Decidable (EdgeRel adj u v) :=
  inferInstanceAs (Decidable (v ∈ adj u))

/-- Invariant of the BFS loop state (queue of stored paths plus visited
set), strong enough to give soundness, optimality, completeness and the
never-reenqueue property of the search from `s` towards `goal`. -/
structure BfsInv (adj : Nat → List Nat) (s goal : Nat)
    (q : List (List Nat)) (vis : Finset Nat) : Prop where
  paths : ∀ p ∈ q, ValidFrom adj s p
  ends_vis : ∀ p ∈ q, ∀ u, p.getLast? = some u → u ∈ vis
  lens : List.Pairwise (fun a b => a ≤ b ∧ b ≤ a + 1) (q.map List.length)
  minimal : ∀ p ∈ q, ∀ r, ValidFrom adj s r → r.getLast? = p.getLast? →
    p.length ≤ r.length
  frontier : ∀ p₀, q.head? = some p₀ → ∀ z r, ValidFrom adj s r →
    r.getLast? = some z → z ∉ vis → p₀.length + 1 ≤ r.length
  expanded : ∀ u ∈ vis, (∃ p ∈ q, p.getLast? = some u) ∨ ∀ v ∈ adj u, v ∈ vis
  target_q : goal ∈ vis → ∃ p ∈ q, p.getLast? = some goal
  src_vis : s ∈ vis

/-- A small concrete adjacency map with two components (`0 ↔ 1` and
`2 ↔ 3`), used to instantiate the BFS theorems. -/
def sampleAdj : Nat → List Nat := fun i => [[1], [0], [3], [2]].getD i []

/-! ### Basic lemmas on canonical keys and the two-sided adjacency updates -/

lemma canonKey_eq_iff {a b c d : Nat} :
    canonKey a b = canonKey c d ↔ (a = c ∧ b = d) ∨ (a = d ∧ b = c) := by
  simp only [canonKey, Prod.mk.injEq]
  omega

lemma canonKey_comm (a b : Nat) : canonKey a b = canonKey b a := by
  simp [canonKey, Nat.min_comm, Nat.max_comm]

lemma canonKey_of_le {a b : Nat} (h : a ≤ b) : canonKey a b = (a, b) := by
  simp [canonKey, Nat.min_eq_left h, Nat.max_eq_right h]

lemma mem_addBoth {A : Nat → Finset Nat} {i t x j : Nat} :
    j ∈ addBoth A i t x ↔ j ∈ A x ∨ (x = i ∧ j = t) ∨ (x = t ∧ j = i) := by
  simp only [addBoth, Function.update_apply]
  split_ifs <;> simp_all [Finset.mem_insert] <;> tauto

lemma mem_removeBoth {A : Nat → Finset Nat} {a b x j : Nat} :
    j ∈ removeBoth A a b x ↔ j ∈ A x ∧ ¬(x = a ∧ j = b) ∧ ¬(x = b ∧ j = a) := by
  simp only [removeBoth, Function.update_apply]
  split_ifs <;> simp_all [Finset.mem_erase] <;> tauto

/-! ### Lattice build characterization -/

lemma buildStep_edgeMap (st : RWState) (it : Nat × Nat) :
    (buildStep st it).edgeMap = insert (canonKey it.1 it.2) st.edgeMap := by
  unfold buildStep
  split_ifs with h
  · exact (Finset.insert_eq_self.2 h).symm
  · rfl

lemma foldl_buildStep_edgeMap (l : List (Nat × Nat)) (st : RWState) :
    (l.foldl buildStep st).edgeMap
      = st.edgeMap ∪ (l.map fun it => canonKey it.1 it.2).toFinset := by
  induction l generalizing st with
  | nil => simp
  | cons a l ih =>
      rw [List.foldl_cons, ih, buildStep_edgeMap, List.map_cons, List.toFinset_cons,
        Finset.insert_union, Finset.union_insert]

lemma sync_buildStep {st : RWState} (hs : Sync st.edgeMap st.adj) (it : Nat × Nat) :
    Sync (buildStep st it).edgeMap (buildStep st it).adj := by
  intro x j
  unfold buildStep
  split_ifs with h
  · exact hs x j
  · show canonKey x j ∈ insert (canonKey it.1 it.2) st.edgeMap ↔ _
    rw [Finset.mem_insert, mem_addBoth, canonKey_eq_iff, hs x j]
    tauto

lemma canon_buildStep {st : RWState} (hc : Canon st.edgeMap) (it : Nat × Nat) :
    Canon (buildStep st it).edgeMap := by
  intro p hp
  rw [buildStep_edgeMap, Finset.mem_insert] at hp
  rcases hp with h | h
  · subst h; exact min_le_max
  · exact hc p h

lemma sync_foldl_buildStep (l : List (Nat × Nat)) {st : RWState}
    (hs : Sync st.edgeMap st.adj) :
    Sync (l.foldl buildStep st).edgeMap (l.foldl buildStep st).adj := by
  induction l generalizing st with
  | nil => exact hs
  | cons a l ih => exact ih (sync_buildStep hs a)

lemma buildLattice_sync (n : Nat) :
    Sync (buildLattice n).edgeMap (buildLattice n).adj := by
  refine sync_foldl_buildStep _ ?_
  intro i j
  simp

lemma buildLattice_canon (n : Nat) : Canon (buildLattice n).edgeMap := by
  unfold buildLattice
  have h : ∀ (l : List (Nat × Nat)) (st : RWState),
      Canon st.edgeMap → Canon (l.foldl buildStep st).edgeMap := by
    intro l
    induction l with
    | nil => intro st h; exact h
    | cons a l ih => intro st h; exact ih _ (canon_buildStep h a)
  refine h _ _ ?_
  intro p hp
  simp at hp

lemma mem_buildLattice_edgeMap {n : Nat} {p : Nat × Nat} :
    p ∈ (buildLattice n).edgeMap
      ↔ ∃ i < n, p = canonKey i ((i + 1) % n) ∨ p = canonKey i ((i + 2) % n) := by
  unfold buildLattice
  rw [foldl_buildStep_edgeMap]
  simp only [Finset.empty_union, List.mem_toFinset, List.mem_map, buildPairs,
    List.mem_flatMap, List.mem_range, List.mem_cons, List.not_mem_nil, or_false]
  constructor
  · rintro ⟨it, ⟨i, hi, hit | hit⟩, hp⟩
    · exact ⟨i, hi, Or.inl (by rw [← hp, hit])⟩
    · exact ⟨i, hi, Or.inr (by rw [← hp, hit])⟩
  · rintro ⟨i, hi, h | h⟩
    · exact ⟨(i, (i + 1) % n), ⟨i, hi, Or.inl rfl⟩, h.symm⟩
    · exact ⟨(i, (i + 2) % n), ⟨i, hi, Or.inr rfl⟩, h.symm⟩

lemma mem_buildLattice_adj {n x j : Nat} :
    j ∈ (buildLattice n).adj x
      ↔ ∃ i < n, canonKey x j = canonKey i ((i + 1) % n)
          ∨ canonKey x j = canonKey i ((i + 2) % n) := by
  rw [← buildLattice_sync n x j, mem_buildLattice_edgeMap]

lemma mod_add_mod_left (n a b : Nat) : (a % n + b) % n = (a + b) % n :=
  Nat.ModEq.add_right b (Nat.mod_modEq a n)

lemma add_mod_inj {n i a b : Nat} (ha : a < n) (hb : b < n)
    (h : (i + a) % n = (i + b) % n) : a = b := by
  have h2 : a ≡ b [MOD n] := Nat.ModEq.add_left_cancel' i h
  rw [Nat.ModEq, Nat.mod_eq_of_lt ha, Nat.mod_eq_of_lt hb] at h2
  exact h2

lemma wrap_back {n j h : Nat} (hj : j < n) (hh : h ≤ n) :
    ((j + h) % n + n - h) % n = j := by
  have h1 : (j + h) % n + n - h = (j + h) % n + (n - h) := by omega
  rw [h1, mod_add_mod_left]
  have h2 : j + h + (n - h) = j + n := by omega
  rw [h2, Nat.add_mod_right, Nat.mod_eq_of_lt hj]

lemma wrap_fwd {n x h : Nat} (hx : x < n) (hh : h ≤ n) :
    ((x + n - h) % n + h) % n = x := by
  have h1 : x + n - h = x + (n - h) := by omega
  rw [h1, mod_add_mod_left]
  have h2 : x + (n - h) + h = x + n := by omega
  rw [h2, Nat.add_mod_right, Nat.mod_eq_of_lt hx]

lemma buildLattice_adj_eq_latticeAdj {n : Nat} (hn : 5 ≤ n) {x : Nat} (hx : x < n) :
    (buildLattice n).adj x = latticeAdj n x := by
  have hn0 : 0 < n := by omega
  ext j
  rw [mem_buildLattice_adj]
  unfold latticeAdj
  simp only [Finset.mem_insert, Finset.mem_singleton]
  constructor
  · rintro ⟨i, hi, hc | hc⟩
    · rcases canonKey_eq_iff.1 hc with ⟨h1, h2⟩ | ⟨h1, h2⟩
      · subst h1; exact Or.inl h2
      · refine Or.inr (Or.inl ?_)
        subst h2; subst h1
        exact (wrap_back hi (by omega)).symm
    · rcases canonKey_eq_iff.1 hc with ⟨h1, h2⟩ | ⟨h1, h2⟩
      · subst h1; exact Or.inr (Or.inr (Or.inl h2))
      · refine Or.inr (Or.inr (Or.inr ?_))
        subst h2; subst h1
        exact (wrap_back hi (by omega)).symm
  · rintro (hj | hj | hj | hj)
    · exact ⟨x, hx, Or.inl (by rw [hj])⟩
    · refine ⟨j, ?_, Or.inl ?_⟩
      · subst hj; exact Nat.mod_lt _ hn0
      · rw [canonKey_comm]
        subst hj
        rw [wrap_fwd hx (by omega)]
    · exact ⟨x, hx, Or.inr (by rw [hj])⟩
    · refine ⟨j, ?_, Or.inr ?_⟩
      · subst hj; exact Nat.mod_lt _ hn0
      · rw [canonKey_comm]
        subst hj
        rw [wrap_fwd hx (by omega)]

lemma buildLattice_symm (n : Nat) : Symm (buildLattice n).adj := by
  intro i j
  rw [mem_buildLattice_adj, mem_buildLattice_adj]
  constructor
  · rintro ⟨a, ha, h⟩
    exact ⟨a, ha, by rwa [canonKey_comm j i]⟩
  · rintro ⟨a, ha, h⟩
    exact ⟨a, ha, by rwa [canonKey_comm i j]⟩

lemma buildLattice_noSelf {n : Nat} (hn : 5 ≤ n) : NoSelf (buildLattice n).adj := by
  intro x hx
  rw [mem_buildLattice_adj] at hx
  obtain ⟨i, hi, hc | hc⟩ := hx
  · have e : (i + 1) % n = (i + 0) % n := by
      simp only [Nat.add_zero, Nat.mod_eq_of_lt hi]
      rcases canonKey_eq_iff.1 hc with ⟨h1, h2⟩ | ⟨h1, h2⟩
      · exact h2.symm.trans h1
      · exact h1.symm.trans h2
    have := add_mod_inj (show 1 < n by omega) (show 0 < n by omega) e
    omega
  · have e : (i + 2) % n = (i + 0) % n := by
      simp only [Nat.add_zero, Nat.mod_eq_of_lt hi]
      rcases canonKey_eq_iff.1 hc with ⟨h1, h2⟩ | ⟨h1, h2⟩
      · exact h2.symm.trans h1
      · exact h1.symm.trans h2
    have := add_mod_inj (show 2 < n by omega) (show 0 < n by omega) e
    omega

lemma latticeAdj_card {n : Nat} (hn : 5 ≤ n) (x : Nat) : (latticeAdj n x).card = 4 := by
  have d : ∀ a b : Nat, a < n → b < n → a ≠ b → (x + a) % n ≠ (x + b) % n :=
    fun a b ha hb hab h => hab (add_mod_inj ha hb h)
  have e1 : (x + n - 1) % n = (x + (n - 1)) % n := by congr 1; omega
  have e2 : (x + n - 2) % n = (x + (n - 2)) % n := by congr 1; omega
  unfold latticeAdj
  rw [e1, e2]
  have h12 : (x + 1) % n ≠ (x + (n - 1)) % n := d _ _ (by omega) (by omega) (by omega)
  have h13 : (x + 1) % n ≠ (x + 2) % n := d _ _ (by omega) (by omega) (by omega)
  have h14 : (x + 1) % n ≠ (x + (n - 2)) % n := d _ _ (by omega) (by omega) (by omega)
  have h23 : (x + (n - 1)) % n ≠ (x + 2) % n := d _ _ (by omega) (by omega) (by omega)
  have h24 : (x + (n - 1)) % n ≠ (x + (n - 2)) % n := d _ _ (by omega) (by omega) (by omega)
  have h34 : (x + 2) % n ≠ (x + (n - 2)) % n := d _ _ (by omega) (by omega) (by omega)
  rw [Finset.card_insert_of_not_mem (by simp [h12, h13, h14]),
    Finset.card_insert_of_not_mem (by simp [h23, h24]),
    Finset.card_insert_of_not_mem (by simp [h34]), Finset.card_singleton]

/-- C3: for every `n ≥ 5`, the lattice built by the canonicalizing,
deduplicating edge loop (anim.py lines 33–54) is a symmetric adjacency
map with no self-loops in which every node `i < n` has degree exactly 4.
(Duplicate parallel edges cannot occur: adjacency sets are `Finset`s and
each undirected edge is stored once under its canonical key, cf.
`buildLattice_sync` and `buildLattice_canon`.) -/
theorem buildLattice_wellformed_degree_four (n : Nat) (hn : 5 ≤ n) :
    Symm (buildLattice n).adj ∧ NoSelf (buildLattice n).adj ∧
      ∀ i < n, ((buildLattice n).adj i).card = 4 := by
  refine ⟨buildLattice_symm n, buildLattice_noSelf hn, fun i hi => ?_⟩
  rw [buildLattice_adj_eq_latticeAdj hn hi]
  exact latticeAdj_card hn i

/-- Witness for C3 at `n = 5`. -/
theorem buildLattice_wellformed_degree_four_witness :
    (2 ∈ (buildLattice 5).adj 1 ↔ 1 ∈ (buildLattice 5).adj 2) ∧
      0 ∉ (buildLattice 5).adj 0 ∧ ((buildLattice 5).adj 0).card = 4 := by
  have h := buildLattice_wellformed_degree_four 5 (by norm_num)
  exact ⟨h.1 1 2, h.2.1 0, h.2.2 0 (by norm_num)⟩

/-- C4: for every `n ≥ 5` and every node `i < n`, the adjacency map
produced by the canonicalizing, deduplicating edge loop (lines 33–54)
agrees with the direct per-node construction of line 129 mapping `i` to
`{(i+1) % n, (i-1) % n, (i+2) % n, (i-2) % n}`. -/
theorem buildLattice_agrees_latticeAdj (n : Nat) (hn : 5 ≤ n) :
    ∀ i < n, (buildLattice n).adj i = latticeAdj n i :=
  fun _ hi => buildLattice_adj_eq_latticeAdj hn hi

/-- Witness for C4 at `n = 5`, `i = 3`. -/
theorem buildLattice_agrees_latticeAdj_witness :
    (buildLattice 5).adj 3 = latticeAdj 5 3 :=
  buildLattice_agrees_latticeAdj 5 (by norm_num) 3 (by norm_num)

/-! ### C5: rewiring with fraction 0 is the identity -/

/-- C5: for every adjacency map and edge set (any `RWState`), any shuffled
edge order, and any stream of random draws, running the rewiring procedure
with `fraction = 0` leaves the state (edge set and adjacency map)
structurally unchanged: `num_rewires = int(len(edges) * 0) = 0`, so no
candidate edge is processed. -/
theorem rewire_fraction_zero_id (N : Nat) (st : RWState)
    (shuffled : List (Nat × Nat)) (rng : List Nat) :
    rewire N st shuffled 0 rng = st := by
  simp [rewire, numRewires, rewireLoop]

/-! ### Rewiring preserves graph well-formedness -/

lemma symm_of_sync {E : Finset (Nat × Nat)} {A : Nat → Finset Nat}
    (hs : Sync E A) : Symm A := by
  intro i j
  rw [← hs i j, ← hs j i, canonKey_comm]

lemma buildLattice_wf {n : Nat} (hn : 5 ≤ n) : WF (buildLattice n) :=
  ⟨buildLattice_sync n, buildLattice_noSelf hn, buildLattice_canon n⟩

lemma wf_removeEdge {st : RWState} {a b : Nat} (hwf : WF st)
    (hab : (a, b) ∈ st.edgeMap) : WF (removeEdge st a b) := by
  obtain ⟨hs, hn, hc⟩ := hwf
  have hle : a ≤ b := hc _ hab
  have hkey : canonKey a b = (a, b) := canonKey_of_le hle
  refine ⟨?_, ?_, ?_⟩
  · intro i j
    show canonKey i j ∈ st.edgeMap.erase (a, b) ↔ j ∈ removeBoth st.adj a b i
    rw [Finset.mem_erase, mem_removeBoth, ← hkey, Ne, canonKey_eq_iff, ← hs i j]
    tauto
  · intro i hi
    rw [show (removeEdge st a b).adj = removeBoth st.adj a b from rfl,
      mem_removeBoth] at hi
    exact hn i hi.1
  · intro p hp
    exact hc p (Finset.mem_of_mem_erase hp)

lemma possibleTargets_spec {N : Nat} {A : Nat → Finset Nat} {a t : Nat} :
    t ∈ possibleTargets N A a ↔ t < N ∧ t ≠ a ∧ t ∉ A a := by
  simp [possibleTargets, List.mem_filter, and_assoc]

lemma chooseTarget_mem {N : Nat} {A : Nat → Finset Nat} {a : Nat} (rng : List Nat)
    (h : possibleTargets N A a ≠ []) :
    chooseTarget N A a rng ∈ possibleTargets N A a := by
  unfold chooseTarget
  have hlen : 0 < (possibleTargets N A a).length := List.length_pos.2 h
  have hidx : rng.headD 0 % (possibleTargets N A a).length
      < (possibleTargets N A a).length := Nat.mod_lt _ hlen
  rw [List.getD_eq_getElem _ _ hidx]
  exact List.getElem_mem hidx

lemma wf_addEdge {st : RWState} {a t : Nat} (hwf : WF st)
    (hta : t ≠ a) : WF (addEdge st a t) := by
  obtain ⟨hs, hn, hc⟩ := hwf
  refine ⟨?_, ?_, ?_⟩
  · intro i j
    show canonKey i j ∈ insert (canonKey a t) st.edgeMap ↔ j ∈ addBoth st.adj a t i
    rw [Finset.mem_insert, mem_addBoth, canonKey_eq_iff, ← hs i j]
    tauto
  · intro i hi
    rw [show (addEdge st a t).adj = addBoth st.adj a t from rfl, mem_addBoth] at hi
    rcases hi with h | ⟨h1, h2⟩ | ⟨h1, h2⟩
    · exact hn i h
    · exact hta (h2.symm.trans h1)
    · exact hta (h1.symm.trans h2)
  · intro p hp
    rw [show (addEdge st a t).edgeMap = insert (canonKey a t) st.edgeMap from rfl,
      Finset.mem_insert] at hp
    rcases hp with h | h
    · subst h; exact min_le_max
    · exact hc p h

/-- The skip at line 87 is unreachable in a well-formed, synchronized
state: the drawn target is outside `adjacency[a]`, so its canonical key
cannot be in the edge map. -/
lemma newKey_not_mem {N : Nat} {st : RWState} {a b : Nat} (rng : List Nat)
    (hwf : WF st) (hab : (a, b) ∈ st.edgeMap)
    (hpt : possibleTargets N (removeEdge st a b).adj a ≠ []) :
    canonKey a (chooseTarget N (removeEdge st a b).adj a rng)
      ∉ (removeEdge st a b).edgeMap := by
  have hwf1 := wf_removeEdge hwf hab
  have ht := chooseTarget_mem rng hpt
  rw [possibleTargets_spec] at ht
  intro hmem
  exact ht.2.2 ((hwf1.1 a _).1 hmem)

lemma wf_rewireStep {N : Nat} {st : RWState} {rng : List Nat} {ab : Nat × Nat}
    (hwf : WF st) : WF (rewireStep N st rng ab).1 := by
  unfold rewireStep
  split_ifs with h1 h2 h3
  · exact wf_removeEdge hwf h1
  · exact wf_removeEdge hwf h1
  · have ht := chooseTarget_mem rng h2
    rw [possibleTargets_spec] at ht
    exact wf_addEdge (wf_removeEdge hwf h1) ht.2.1
  · exact hwf

lemma wf_rewireLoop {N : Nat} (l : List (Nat × Nat)) {st : RWState}
    {rng : List Nat} (hwf : WF st) : WF (rewireLoop N l st rng) := by
  induction l generalizing st rng with
  | nil => exact hwf
  | cons ab rest ih => exact ih (wf_rewireStep hwf)

/-- C2: for every fraction, shuffle outcome and stream of random draws,
rewiring a well-formed state (such as the built lattice: symmetric,
self-loop-free, with synchronized canonical edge keys) keeps the
adjacency map symmetric and self-loop-free — after every individual
rewiring step (every prefix of the processed candidates), not only at
the end.  Duplicate parallel edges cannot arise: adjacency sets are
`Finset`s and the edge map stays synchronized (`rewireLoop_sync_and_no_clash`). -/
theorem rewire_preserves_wellformed (N : Nat) (st : RWState)
    (sh : List (Nat × Nat)) (frac : ℚ) (rng : List Nat) (hwf : WF st) :
    (∀ k,
      Symm (rewireLoop N ((sh.take (numRewires st frac)).take k) st rng).adj ∧
      NoSelf (rewireLoop N ((sh.take (numRewires st frac)).take k) st rng).adj) ∧
    Symm (rewire N st sh frac rng).adj ∧ NoSelf (rewire N st sh frac rng).adj := by
  have hpre : ∀ (l : List (Nat × Nat)) (rng : List Nat),
      Symm (rewireLoop N l st rng).adj ∧ NoSelf (rewireLoop N l st rng).adj := by
    intro l rng
    have h := @wf_rewireLoop N l st rng hwf
    exact ⟨symm_of_sync h.1, h.2.1⟩
  exact ⟨fun k => hpre _ _, hpre _ _⟩

/-- Witness for C2: rewiring the `n = 5` lattice with fraction 1. -/
theorem rewire_preserves_wellformed_witness :
    (1 ∈ (rewireLoop 5 (([((0:Nat), (1:Nat))].take
        (numRewires (buildLattice 5) 1)).take 1) (buildLattice 5) [3]).adj 0
      ↔ 0 ∈ (rewireLoop 5 (([((0:Nat), (1:Nat))].take
        (numRewires (buildLattice 5) 1)).take 1) (buildLattice 5) [3]).adj 1) ∧
    2 ∉ (rewire 5 (buildLattice 5) [((0:Nat), (1:Nat))] 1 [3]).adj 2 := by
  have h := rewire_preserves_wellformed 5 (buildLattice 5) [((0:Nat), (1:Nat))] 1 [3]
    (buildLattice_wf (by norm_num))
  exact ⟨(h.1 1).1 0 1, h.2.2 2⟩

/-- C9: throughout the rewiring loop the edge set and the adjacency map
stay synchronized (the canonical key is in the edge map iff the edge is
in the adjacency map), at every prefix of the processed candidates; and
consequently, at any reachable state, for any candidate edge present in
the map whose possible-target list is nonempty, the drawn target's
canonical key is not already present — the 'new canonical edge already
exists' skip branch (line 87) is never taken. -/
theorem rewireLoop_sync_and_no_clash (N : Nat) (st : RWState)
    (sh : List (Nat × Nat)) (frac : ℚ) (rng : List Nat) (hwf : WF st) :
    (∀ k,
      Sync (rewireLoop N ((sh.take (numRewires st frac)).take k) st rng).edgeMap
        (rewireLoop N ((sh.take (numRewires st frac)).take k) st rng).adj) ∧
    (∀ k a b rng₂,
      (a, b) ∈ (rewireLoop N ((sh.take (numRewires st frac)).take k) st rng).edgeMap →
      possibleTargets N
        (removeEdge (rewireLoop N ((sh.take (numRewires st frac)).take k) st rng) a b).adj
        a ≠ [] →
      canonKey a (chooseTarget N
          (removeEdge (rewireLoop N ((sh.take (numRewires st frac)).take k) st rng) a b).adj
          a rng₂)
        ∉ (removeEdge (rewireLoop N ((sh.take (numRewires st frac)).take k) st rng) a b).edgeMap) := by
  constructor
  · intro k
    exact (wf_rewireLoop _ hwf).1
  · intro k a b rng₂ hab hpt
    exact newKey_not_mem rng₂ (wf_rewireLoop _ hwf) hab hpt

/-- Witness for C9: the `n = 5` lattice, candidate edge `(0, 1)`. -/
theorem rewireLoop_sync_and_no_clash_witness :
    (canonKey 0 1 ∈ (rewireLoop 5 (([((2:Nat), (3:Nat))].take
        (numRewires (buildLattice 5) 1)).take 0) (buildLattice 5) [2]).edgeMap
      ↔ 1 ∈ (rewireLoop 5 (([((2:Nat), (3:Nat))].take
        (numRewires (buildLattice 5) 1)).take 0) (buildLattice 5) [2]).adj 0) ∧
    canonKey 0 (chooseTarget 5
        (removeEdge (rewireLoop 5 (([((2:Nat), (3:Nat))].take
          (numRewires (buildLattice 5) 1)).take 0) (buildLattice 5) [2]) 0 1).adj
        0 [4])
      ∉ (removeEdge (rewireLoop 5 (([((2:Nat), (3:Nat))].take
          (numRewires (buildLattice 5) 1)).take 0) (buildLattice 5) [2]) 0 1).edgeMap := by
  have h := rewireLoop_sync_and_no_clash 5 (buildLattice 5) [((2:Nat), (3:Nat))] 1 [2]
    (buildLattice_wf (by norm_num))
  exact ⟨h.1 0 0 1, h.2 0 0 1 [4] (by decide) (by decide)⟩

/-- C6: the rewiring procedure is deterministic in its random source: two
runs on identical input driven by identical shuffle outcomes and identical
streams of choice draws produce identical output states. -/
theorem rewire_deterministic (N : Nat) (st : RWState)
    (sh₁ sh₂ : List (Nat × Nat)) (frac : ℚ) (rng₁ rng₂ : List Nat)
    (hsh : sh₁ = sh₂) (hrng : rng₁ = rng₂) :
    rewire N st sh₁ frac rng₁ = rewire N st sh₂ frac rng₂ := by
  rw [hsh, hrng]

/-- Witness for C6 at a concrete input. -/
theorem rewire_deterministic_witness :
    rewire 5 (buildLattice 5) [(0, 1), (2, 3)] 1 [7, 3]
      = rewire 5 (buildLattice 5) [(0, 1), (2, 3)] 1 [7, 3] :=
  rewire_deterministic 5 (buildLattice 5) [(0, 1), (2, 3)] [(0, 1), (2, 3)] 1
    [7, 3] [7, 3] rfl rfl

/-! ### BFS: properties of the neighbor-expansion step -/

lemma expand_vis_mono (p : List Nat) :
    ∀ (ns : List Nat) (vis : Finset Nat), vis ⊆ (expand p ns vis).2 := by
  intro ns
  induction ns with
  | nil => intro vis; simp [expand]
  | cons v vs ih =>
      intro vis
      simp only [expand]
      split_ifs with hv
      · exact ih vis
      · exact (Finset.subset_insert v vis).trans (ih (insert v vis))

lemma expand_paths_spec (p : List Nat) :
    ∀ (ns : List Nat) (vis : Finset Nat) (q : List Nat),
      q ∈ (expand p ns vis).1 → ∃ v, q = p ++ [v] ∧ v ∈ ns ∧ v ∉ vis := by
  intro ns
  induction ns with
  | nil => intro vis q hq; simp [expand] at hq
  | cons v vs ih =>
      intro vis q hq
      simp only [expand] at hq
      split_ifs at hq with hv
      · obtain ⟨w, hq, hw, hwv⟩ := ih vis q hq
        exact ⟨w, hq, List.mem_cons_of_mem v hw, hwv⟩
      · rcases List.mem_cons.1 hq with h | h
        · exact ⟨v, h, List.mem_cons_self v vs, hv⟩
        · obtain ⟨w, hq, hw, hwv⟩ := ih (insert v vis) q h
          exact ⟨w, hq, List.mem_cons_of_mem v hw,
            fun hmem => hwv (Finset.mem_insert_of_mem hmem)⟩

lemma expand_subset_union (p : List Nat) :
    ∀ (ns : List Nat) (vis : Finset Nat),
      (expand p ns vis).2 ⊆ vis ∪ ns.toFinset := by
  intro ns
  induction ns with
  | nil => intro vis; simp [expand]
  | cons v vs ih =>
      intro vis
      simp only [expand]
      split_ifs with hv
      · refine (ih vis).trans ?_
        intro x hx
        rcases Finset.mem_union.1 hx with h | h
        · exact Finset.mem_union_left _ h
        · exact Finset.mem_union_right _ (by simp [List.toFinset_cons, h])
      · refine (ih (insert v vis)).trans ?_
        intro x hx
        rcases Finset.mem_union.1 hx with h | h
        · rcases Finset.mem_insert.1 h with h' | h'
          · exact Finset.mem_union_right _ (by simp [List.toFinset_cons, h'])
          · exact Finset.mem_union_left _ h'
        · exact Finset.mem_union_right _ (by simp [List.toFinset_cons, h])

lemma expand_mem_vis (p : List Nat) :
    ∀ (ns : List Nat) (vis : Finset Nat) (v : Nat),
      v ∈ ns → v ∈ (expand p ns vis).2 := by
  intro ns
  induction ns with
  | nil => intro vis v hv; simp at hv
  | cons u us ih =>
      intro vis v hv
      simp only [expand]
      split_ifs with hu
      · rcases List.mem_cons.1 hv with h | h
        · exact expand_vis_mono p us vis (h ▸ hu)
        · exact ih vis v h
      · rcases List.mem_cons.1 hv with h | h
        · exact expand_vis_mono p us (insert u vis)
            (h ▸ Finset.mem_insert_self u vis)
        · exact ih (insert u vis) v h

lemma expand_vis_cases (p : List Nat) :
    ∀ (ns : List Nat) (vis : Finset Nat) (z : Nat),
      z ∈ (expand p ns vis).2 →
      z ∈ vis ∨ ∃ q ∈ (expand p ns vis).1, q.getLast? = some z := by
  intro ns
  induction ns with
  | nil => intro vis z hz; simp [expand] at hz ⊢; exact hz
  | cons v vs ih =>
      intro vis z hz
      simp only [expand] at hz ⊢
      split_ifs at hz ⊢ with hv
      · exact ih vis z hz
      · rcases ih (insert v vis) z hz with h | ⟨q, hq, hqz⟩
        · rcases Finset.mem_insert.1 h with h' | h'
          · subst h'
            exact Or.inr ⟨p ++ [z], List.mem_cons_self _ _, List.getLast?_concat p⟩
          · exact Or.inl h'
        · exact Or.inr ⟨q, List.mem_cons_of_mem _ hq, hqz⟩

lemma expand_card (p : List Nat) :
    ∀ (ns : List Nat) (vis : Finset Nat),
      (expand p ns vis).2.card = vis.card + (expand p ns vis).1.length := by
  intro ns
  induction ns with
  | nil => intro vis; simp [expand]
  | cons v vs ih =>
      intro vis
      simp only [expand]
      split_ifs with hv
      · exact ih vis
      · simp only [List.length_cons]
        rw [ih (insert v vis), Finset.card_insert_of_not_mem hv]
        omega

lemma expand_measure {U : Finset Nat} (p : List Nat) (ns : List Nat)
    (vis : Finset Nat) (hns : ∀ v ∈ ns, v ∈ U) :
    (expand p ns vis).1.length + (U \ (expand p ns vis).2).card
      ≤ (U \ vis).card := by
  have hmono := expand_vis_mono p ns vis
  have hsub := expand_subset_union p ns vis
  have hcard := expand_card p ns vis
  have hS : ((expand p ns vis).2 \ vis).card = (expand p ns vis).1.length := by
    have := Finset.card_sdiff hmono
    omega
  have hdisj : Disjoint (U \ (expand p ns vis).2) ((expand p ns vis).2 \ vis) := by
    rw [Finset.disjoint_left]
    intro x hx1 hx2
    exact (Finset.mem_sdiff.1 hx1).2 (Finset.mem_sdiff.1 hx2).1
  have hunion : (U \ (expand p ns vis).2) ∪ ((expand p ns vis).2 \ vis)
      ⊆ U \ vis := by
    intro x hx
    rcases Finset.mem_union.1 hx with h | h
    · rw [Finset.mem_sdiff] at h ⊢
      exact ⟨h.1, fun hv => h.2 (hmono hv)⟩
    · rw [Finset.mem_sdiff] at h ⊢
      refine ⟨?_, h.2⟩
      rcases Finset.mem_union.1 (hsub h.1) with h' | h'
      · exact absurd h' h.2
      · exact hns x (List.mem_toFinset.1 h')
  have hle := Finset.card_le_card hunion
  rw [Finset.card_union_of_disjoint hdisj] at hle
  omega

/-! ### BFS: dequeues are bounded (fuel beyond the measure is irrelevant) -/

lemma bfsAux_fuel_eq {adj : Nat → List Nat} {goal : Nat} {U : Finset Nat}
    (hU : ∀ u v, v ∈ adj u → v ∈ U) :
    ∀ (f₁ f₂ : Nat) (q : List (List Nat)) (vis : Finset Nat),
      bfsMeasure U q vis ≤ f₁ → bfsMeasure U q vis ≤ f₂ →
      bfsAux adj goal f₁ q vis = bfsAux adj goal f₂ q vis := by
  intro f₁
  induction f₁ with
  | zero =>
      intro f₂ q vis h1 _
      have hq : q = [] := by
        cases q with
        | nil => rfl
        | cons p rest => simp [bfsMeasure] at h1
      subst hq
      cases f₂ <;> simp [bfsAux]
  | succ f ih =>
      intro f₂ q vis h1 h2
      cases q with
      | nil => cases f₂ <;> simp [bfsAux]
      | cons p rest =>
          have hm : 1 ≤ bfsMeasure U (p :: rest) vis := by
            simp only [bfsMeasure, List.length_cons]
            omega
          cases f₂ with
          | zero => omega
          | succ g =>
              simp only [bfsAux]
              split_ifs with hgoal
              · rfl
              · have hdec := expand_measure p (adj (p.getLastD 0)) vis
                  (fun v hv => hU _ v hv)
                apply ih
                · simp only [bfsMeasure, List.length_append] at h1 ⊢
                  simp only [bfsMeasure, List.length_cons] at hdec h1
                  omega
                · simp only [bfsMeasure, List.length_append] at h2 ⊢
                  simp only [bfsMeasure, List.length_cons] at hdec h2
                  omega

/-- C10: the BFS loop terminates on every finite adjacency map: for a
vertex set `U` closed under the adjacency enumeration, each node is
marked visited at most once before being enqueued, so the queue is
dequeued at most `bfsMeasure U [[s]] {s}` (= 1 + number of other
vertices) times — any fuel of at least that bound yields the same
result. -/
theorem bfsPath_terminates (adj : Nat → List Nat) (U : Finset Nat)
    (s goal fuel : Nat) (hU : ∀ u v, v ∈ adj u → v ∈ U)
    (hfuel : bfsMeasure U [[s]] {s} ≤ fuel) :
    bfsPath adj fuel s goal = bfsPath adj (bfsMeasure U [[s]] {s}) s goal :=
  bfsAux_fuel_eq hU fuel _ _ _ hfuel le_rfl

/-! ### BFS: walks and the loop invariant -/

lemma validFrom_ne_nil {adj : Nat → List Nat} {s : Nat} {r : List Nat}
    (h : ValidFrom adj s r) : r ≠ [] := by
  intro he
  subst he
  exact Option.noConfusion h.1

lemma getLast?_eq_some_getLastD {l : List Nat} (h : l ≠ []) :
    l.getLast? = some (l.getLastD 0) := by
  cases hl : l.getLast? with
  | none => exact absurd (List.getLast?_eq_none_iff.1 hl) h
  | some x =>
      rw [List.getLastD_eq_getLast?, hl]
      rfl

lemma head?_append_left {l l' : List Nat} (h : l ≠ []) :
    (l ++ l').head? = l.head? := by
  cases l with
  | nil => exact absurd rfl h
  | cons a t => rfl

lemma validFrom_concat {adj : Nat → List Nat} {s : Nat} {p : List Nat} {v : Nat}
    (hp : ValidFrom adj s p) (hv : v ∈ adj (p.getLastD 0)) :
    ValidFrom adj s (p ++ [v]) := by
  have hne := validFrom_ne_nil hp
  refine ⟨by rw [head?_append_left hne]; exact hp.1, ?_⟩
  rw [List.chain'_append]
  refine ⟨hp.2, List.chain'_singleton v, ?_⟩
  intro x hx y hy
  rw [getLast?_eq_some_getLastD hne] at hx
  have hx' : x = p.getLastD 0 := (Option.mem_some_iff.1 hx).symm
  have hy' : y = v := (Option.mem_some_iff.1 hy).symm
  subst hx'
  subst hy'
  exact hv

lemma dropLast_ne_nil {r : List Nat} (h2 : 2 ≤ r.length) : r.dropLast ≠ [] := by
  intro h
  have hl := List.length_dropLast r
  rw [h] at hl
  simp at hl
  omega

lemma valid_dropLast {adj : Nat → List Nat} {s : Nat} {r : List Nat}
    (hr : ValidFrom adj s r) (h2 : 2 ≤ r.length) :
    ValidFrom adj s r.dropLast := by
  have hrne : r ≠ [] := validFrom_ne_nil hr
  have hdne : r.dropLast ≠ [] := dropLast_ne_nil h2
  have hsplit : r.dropLast ++ [r.getLast hrne] = r := List.dropLast_append_getLast hrne
  constructor
  · have h := hr.1
    rw [← hsplit, head?_append_left hdne] at h
    exact h
  · have h := hr.2
    rw [← hsplit] at h
    exact (List.chain'_append.1 h).1

lemma valid_last_edge {adj : Nat → List Nat} {s : Nat} {r : List Nat} {z : Nat}
    (hr : ValidFrom adj s r) (h2 : 2 ≤ r.length) (hz : r.getLast? = some z) :
    EdgeRel adj (r.dropLast.getLastD 0) z := by
  have hrne : r ≠ [] := validFrom_ne_nil hr
  have hdne : r.dropLast ≠ [] := dropLast_ne_nil h2
  have hsplit : r.dropLast ++ [r.getLast hrne] = r := List.dropLast_append_getLast hrne
  have hgl : r.getLast hrne = z := by
    have h := List.getLast?_eq_getLast r hrne
    rw [h] at hz
    exact Option.some.inj hz
  have hchain := hr.2
  rw [← hsplit] at hchain
  have h := (List.chain'_append.1 hchain).2.2
  refine h _ ?_ z ?_
  · rw [getLast?_eq_some_getLastD hdne]
    rfl
  · simp [hgl]

lemma bfsInv_init (adj : Nat → List Nat) (s goal : Nat) :
    BfsInv adj s goal [[s]] {s} := by
  refine ⟨?_, ?_, ?_, ?_, ?_, ?_, ?_, ?_⟩
  · intro p hp
    rw [List.mem_singleton] at hp
    subst hp
    exact ⟨rfl, List.chain'_singleton s⟩
  · intro p hp u hu
    rw [List.mem_singleton] at hp
    subst hp
    simp at hu
    simp [hu]
  · simp
  · intro p hp r hr _
    rw [List.mem_singleton] at hp
    subst hp
    simpa using List.length_pos.2 (validFrom_ne_nil hr)
  · intro p₀ hp₀ z r hr hz hzvis
    have hp₀e : p₀ = [s] := by
      simp only [List.head?_cons, Option.some.injEq] at hp₀
      exact hp₀.symm
    subst hp₀e
    by_contra hcon
    push_neg at hcon
    have h1 : 1 ≤ r.length := List.length_pos.2 (validFrom_ne_nil hr)
    have hr1 : r.length = 1 := by
      simp only [List.length_singleton] at hcon
      omega
    obtain ⟨x, hx⟩ := List.length_eq_one.1 hr1
    subst hx
    have hxs : x = s := by simpa using hr.1
    have hxz : x = z := by simpa using hz
    exact hzvis (by simp [← hxz, hxs])
  · intro u hu
    rw [Finset.mem_singleton] at hu
    subst hu
    exact Or.inl ⟨[u], by simp, by simp⟩
  · intro hg
    rw [Finset.mem_singleton] at hg
    exact ⟨[s], by simp, by simp [hg]⟩
  · exact Finset.mem_singleton_self s

/-- One non-returning BFS iteration preserves the loop invariant. -/
lemma bfsInv_step {adj : Nat → List Nat} {s goal : Nat} {p : List Nat}
    {rest : List (List Nat)} {vis : Finset Nat}
    (hinv : BfsInv adj s goal (p :: rest) vis)
    (hne : p.getLastD 0 ≠ goal) :
    BfsInv adj s goal
      (rest ++ (expand p (adj (p.getLastD 0)) vis).1)
      (expand p (adj (p.getLastD 0)) vis).2 := by
  obtain ⟨hpaths, hends, hlens, hmin, hfront, hexp, htq, hsrc⟩ := hinv
  set u := p.getLastD 0 with hu
  set ns := adj u with hns
  have hpmem : p ∈ p :: rest := List.mem_cons_self p rest
  have hpvalid : ValidFrom adj s p := hpaths p hpmem
  have hpne : p ≠ [] := validFrom_ne_nil hpvalid
  have hplast : p.getLast? = some u := by
    rw [getLast?_eq_some_getLastD hpne, hu]
  have hmono := expand_vis_mono p ns vis
  have hnew := expand_paths_spec p ns vis
  have hnewlen : ∀ q ∈ (expand p ns vis).1, q.length = p.length + 1 := by
    intro q hq
    obtain ⟨v, hqe, _, _⟩ := hnew q hq
    subst hqe
    simp
  have hnewvalid : ∀ q ∈ (expand p ns vis).1, ValidFrom adj s q := by
    intro q hq
    obtain ⟨v, hqe, hv, _⟩ := hnew q hq
    subst hqe
    exact validFrom_concat hpvalid (by rw [← hu, ← hns]; exact hv)
  simp only [List.map_cons] at hlens
  have hrestlen : ∀ x ∈ rest, p.length ≤ x.length ∧ x.length ≤ p.length + 1 :=
    fun x hx => (List.pairwise_cons.1 hlens).1 x.length
      (List.mem_map_of_mem List.length hx)
  refine ⟨?_, ?_, ?_, ?_, ?_, ?_, ?_, ?_⟩
  · -- paths
    intro q hq
    rcases List.mem_append.1 hq with h | h
    · exact hpaths q (List.mem_cons_of_mem p h)
    · exact hnewvalid q h
  · -- ends_vis
    intro q hq w hw
    rcases List.mem_append.1 hq with h | h
    · exact hmono (hends q (List.mem_cons_of_mem p h) w hw)
    · obtain ⟨v, hqe, hv, _⟩ := hnew q h
      subst hqe
      rw [List.getLast?_concat] at hw
      have hvw : v = w := Option.some.inj hw
      subst hvw
      exact expand_mem_vis p ns vis v hv
  · -- lens
    rw [List.map_append, List.pairwise_append]
    refine ⟨(List.pairwise_cons.1 hlens).2, ?_, ?_⟩
    · have hconst : ∀ x ∈ (expand p ns vis).1.map List.length, x = p.length + 1 := by
        intro x hx
        obtain ⟨q, hq, hxq⟩ := List.mem_map.1 hx
        rw [← hxq]
        exact hnewlen q hq
      exact List.pairwise_of_forall_mem_list fun x hx y hy => by
        rw [hconst x hx, hconst y hy]
        omega
    · intro x hx y hy
      obtain ⟨qx, hqx, hxe⟩ := List.mem_map.1 hx
      obtain ⟨qy, hqy, hye⟩ := List.mem_map.1 hy
      have h1 := hrestlen qx hqx
      have h2 := hnewlen qy hqy
      rw [← hxe, ← hye, h2]
      omega
  · -- minimal
    intro q hq r hr hlast
    rcases List.mem_append.1 hq with h | h
    · exact hmin q (List.mem_cons_of_mem p h) r hr hlast
    · obtain ⟨v, hqe, hv, hvvis⟩ := hnew q h
      subst hqe
      rw [List.getLast?_concat] at hlast
      have := hfront p rfl v r hr hlast hvvis
      simpa using this
  · -- frontier
    intro p₀ hp₀ z r hr hz hzvis
    have hzvis' : z ∉ vis := fun h => hzvis (hmono h)
    have hbase := hfront p rfl z r hr hz hzvis'
    have hp₀mem : p₀ ∈ rest ++ (expand p ns vis).1 := List.mem_of_mem_head? hp₀
    have hp₀len : p₀.length ≤ p.length + 1 := by
      rcases List.mem_append.1 hp₀mem with h | h
      · exact (hrestlen p₀ h).2
      · rw [hnewlen p₀ h]
    rcases Nat.lt_or_ge p₀.length (p.length + 1) with hlt | hge
    · omega
    · have hp₀eq : p₀.length = p.length + 1 := by omega
      by_contra hcon
      push_neg at hcon
      have hplen1 : 1 ≤ p.length := List.length_pos.2 hpne
      have hrlen : r.length = p.length + 1 := by omega
      have hrlen2 : 2 ≤ r.length := by omega
      have hdval : ValidFrom adj s r.dropLast := valid_dropLast hr hrlen2
      have hdne : r.dropLast ≠ [] := dropLast_ne_nil hrlen2
      have hdlen : r.dropLast.length = p.length := by
        rw [List.length_dropLast]
        omega
      have hdlast : r.dropLast.getLast? = some (r.dropLast.getLastD 0) :=
        getLast?_eq_some_getLastD hdne
      have hedge : EdgeRel adj (r.dropLast.getLastD 0) z := valid_last_edge hr hrlen2 hz
      have hwvis : r.dropLast.getLastD 0 ∈ vis := by
        by_contra hwv
        have := hfront p rfl (r.dropLast.getLastD 0) r.dropLast hdval hdlast hwv
        omega
      rcases hexp (r.dropLast.getLastD 0) hwvis with ⟨pw, hpw, hpwlast⟩ | hclosed
      · rcases List.mem_cons.1 hpw with hpe | hpw'
        · rw [hpe, hplast] at hpwlast
          have huw : u = r.dropLast.getLastD 0 := Option.some.inj hpwlast
          exact hzvis (expand_mem_vis p ns vis z (by rw [hns, huw]; exact hedge))
        · have hminw := hmin pw (List.mem_cons_of_mem p hpw') r.dropLast hdval
            (by rw [hdlast, hpwlast])
          have hgew := (hrestlen pw hpw').1
          have hpweq : pw.length = p.length := by omega
          cases rest with
          | nil => simp at hpw'
          | cons a rest' =>
              have hp₀a : a = p₀ := by
                simp only [List.cons_append, List.head?_cons,
                  Option.some.injEq] at hp₀
                exact hp₀
              rcases List.mem_cons.1 hpw' with he | hm
              · rw [← hp₀a, ← he, hpweq] at hp₀eq
                omega
              · have hpair := (List.pairwise_cons.1 hlens).2
                simp only [List.map_cons] at hpair
                have := (List.pairwise_cons.1 hpair).1 pw.length
                  (List.mem_map_of_mem List.length hm)
                rw [← hp₀a] at hp₀eq
                omega
      · exact hzvis (hmono (hclosed z hedge))
  · -- expanded
    intro w hw
    rcases expand_vis_cases p ns vis w hw with hwv | ⟨q, hq, hqw⟩
    · rcases hexp w hwv with ⟨pw, hpw, hpwl⟩ | hclosed
      · rcases List.mem_cons.1 hpw with he | hm
        · rw [he, hplast] at hpwl
          have huw : u = w := Option.some.inj hpwl
          refine Or.inr fun v hv => ?_
          exact expand_mem_vis p ns vis v (by rw [hns, huw]; exact hv)
        · exact Or.inl ⟨pw, List.mem_append_left _ hm, hpwl⟩
      · exact Or.inr fun v hv => hmono (hclosed v hv)
    · exact Or.inl ⟨q, List.mem_append_right _ hq, hqw⟩
  · -- target_q
    intro hg
    rcases expand_vis_cases p ns vis goal hg with hgv | ⟨q, hq, hql⟩
    · obtain ⟨pw, hpw, hpwl⟩ := htq hgv
      rcases List.mem_cons.1 hpw with he | hm
      · rw [he, hplast] at hpwl
        exact absurd (Option.some.inj hpwl) hne
      · exact ⟨pw, List.mem_append_left _ hm, hpwl⟩
    · exact ⟨q, List.mem_append_right _ hq, hql⟩
  · -- src_vis
    exact hmono hsrc

lemma bfsAux_cons (adj : Nat → List Nat) (goal f : Nat) (p : List Nat)
    (rest : List (List Nat)) (vis : Finset Nat) :
    bfsAux adj goal (f + 1) (p :: rest) vis
      = if p.getLastD 0 = goal then p
        else bfsAux adj goal f
          (rest ++ (expand p (adj (p.getLastD 0)) vis).1)
          (expand p (adj (p.getLastD 0)) vis).2 := rfl

lemma bfsAux_sound {adj : Nat → List Nat} {s goal : Nat} :
    ∀ (fuel : Nat) (q : List (List Nat)) (vis : Finset Nat),
      BfsInv adj s goal q vis →
      bfsAux adj goal fuel q vis ≠ [] →
      ValidFrom adj s (bfsAux adj goal fuel q vis) ∧
      (bfsAux adj goal fuel q vis).getLast? = some goal ∧
      ∀ r, ValidFrom adj s r → r.getLast? = some goal →
        (bfsAux adj goal fuel q vis).length ≤ r.length := by
  intro fuel
  induction fuel with
  | zero => intro q vis _ hne; simp [bfsAux] at hne
  | succ f ih =>
      intro q vis hinv hne
      cases q with
      | nil => simp [bfsAux] at hne
      | cons p rest =>
          by_cases hgoal : p.getLastD 0 = goal
          · have hres : bfsAux adj goal (f + 1) (p :: rest) vis = p := by
              rw [bfsAux_cons, if_pos hgoal]
            rw [hres] at hne ⊢
            have hp := hinv.paths p (List.mem_cons_self p rest)
            have hpne := validFrom_ne_nil hp
            have hplast : p.getLast? = some goal := by
              rw [getLast?_eq_some_getLastD hpne, hgoal]
            refine ⟨hp, hplast, fun r hr hrl => ?_⟩
            exact hinv.minimal p (List.mem_cons_self p rest) r hr
              (by rw [hplast, hrl])
          · have hres : bfsAux adj goal (f + 1) (p :: rest) vis
                = bfsAux adj goal f
                    (rest ++ (expand p (adj (p.getLastD 0)) vis).1)
                    (expand p (adj (p.getLastD 0)) vis).2 := by
              rw [bfsAux_cons, if_neg hgoal]
            rw [hres] at hne ⊢
            exact ih _ _ (bfsInv_step hinv hgoal) hne

/-- C1: whenever the BFS routine (any fuel, any adjacency map, any source
and target) returns a non-empty sequence, that sequence starts at the
source, ends at the target, follows edges of the adjacency map at each
consecutive pair, and its edge count is minimal among all such walks —
i.e. it equals the graph-theoretic shortest-path distance. -/
theorem bfsPath_shortest (adj : Nat → List Nat) (fuel s goal : Nat)
    (hne : bfsPath adj fuel s goal ≠ []) :
    (bfsPath adj fuel s goal).head? = some s ∧
    List.Chain' (EdgeRel adj) (bfsPath adj fuel s goal) ∧
    (bfsPath adj fuel s goal).getLast? = some goal ∧
    ∀ r, r.head? = some s → List.Chain' (EdgeRel adj) r →
      r.getLast? = some goal → (bfsPath adj fuel s goal).length ≤ r.length := by
  have h := bfsAux_sound fuel [[s]] {s} (bfsInv_init adj s goal) hne
  exact ⟨h.1.1, h.1.2, h.2.1, fun r h1 h2 h3 => h.2.2 r ⟨h1, h2⟩ h3⟩

/-- Witness for C1 on the concrete two-component graph. -/
theorem bfsPath_shortest_witness :
    (bfsPath sampleAdj 10 0 1).head? = some 0 ∧
    List.Chain' (EdgeRel sampleAdj) (bfsPath sampleAdj 10 0 1) ∧
    (bfsPath sampleAdj 10 0 1).getLast? = some 1 ∧
    (bfsPath sampleAdj 10 0 1).length ≤ ([0, 1] : List Nat).length := by
  have h := bfsPath_shortest sampleAdj 10 0 1 (by decide)
  exact ⟨h.1, h.2.1, h.2.2.1, h.2.2.2 [0, 1] (by decide)
    (by simp [List.chain'_cons, List.chain'_singleton, EdgeRel, sampleAdj]) (by decide)⟩

lemma reachable_mem_vis_of_queue_nil {adj : Nat → List Nat} {s goal : Nat}
    {vis : Finset Nat} (hinv : BfsInv adj s goal [] vis) :
    ∀ r, ValidFrom adj s r → ∀ z, r.getLast? = some z → z ∈ vis := by
  intro r
  induction r using List.reverseRecOn with
  | nil => intro hr; exact absurd rfl (validFrom_ne_nil hr)
  | append_singleton r' z' ih =>
      intro hr z hz
      rw [List.getLast?_concat] at hz
      have hzz : z' = z := Option.some.inj hz
      by_cases hr' : r' = []
      · subst hr'
        have hs : z' = s := by simpa using hr.1
        rw [← hzz, hs]
        exact hinv.src_vis
      · have hr'valid : ValidFrom adj s r' := by
          constructor
          · have h := hr.1
            rw [head?_append_left hr'] at h
            exact h
          · exact (List.chain'_append.1 hr.2).1
        have hwlast := getLast?_eq_some_getLastD hr'
        have hwvis := ih hr'valid _ hwlast
        rcases hinv.expanded _ hwvis with ⟨p, hp, _⟩ | hclosed
        · simp at hp
        · have hch := (List.chain'_append.1 hr.2).2.2
          have hedge : EdgeRel adj (r'.getLastD 0) z' :=
            hch _ (by rw [hwlast]; rfl) z' rfl
          rw [← hzz]
          exact hclosed z' hedge

lemma bfsAux_nil_unreachable {adj : Nat → List Nat} {s goal : Nat}
    {U : Finset Nat} (hU : ∀ u v, v ∈ adj u → v ∈ U) :
    ∀ (fuel : Nat) (q : List (List Nat)) (vis : Finset Nat),
      BfsInv adj s goal q vis → bfsMeasure U q vis ≤ fuel →
      bfsAux adj goal fuel q vis = [] →
      ∀ r, ValidFrom adj s r → r.getLast? = some goal → False := by
  intro fuel
  induction fuel with
  | zero =>
      intro q vis hinv hm _ r hr hrl
      have hq : q = [] := by
        cases q with
        | nil => rfl
        | cons p rest => simp [bfsMeasure] at hm
      subst hq
      have hvis := reachable_mem_vis_of_queue_nil hinv r hr goal hrl
      obtain ⟨p, hp, _⟩ := hinv.target_q hvis
      simp at hp
  | succ f ih =>
      intro q vis hinv hm hres r hr hrl
      cases q with
      | nil =>
          have hvis := reachable_mem_vis_of_queue_nil hinv r hr goal hrl
          obtain ⟨p, hp, _⟩ := hinv.target_q hvis
          simp at hp
      | cons p rest =>
          by_cases hgoal : p.getLastD 0 = goal
          · have hp := hinv.paths p (List.mem_cons_self p rest)
            have hpr : bfsAux adj goal (f + 1) (p :: rest) vis = p := by
              rw [bfsAux_cons, if_pos hgoal]
            rw [hpr] at hres
            exact validFrom_ne_nil hp hres
          · have hstep : bfsAux adj goal (f + 1) (p :: rest) vis
                = bfsAux adj goal f
                    (rest ++ (expand p (adj (p.getLastD 0)) vis).1)
                    (expand p (adj (p.getLastD 0)) vis).2 := by
              rw [bfsAux_cons, if_neg hgoal]
            rw [hstep] at hres
            have hdec := expand_measure p (adj (p.getLastD 0)) vis
              (fun v hv => hU _ v hv)
            refine ih _ _ (bfsInv_step hinv hgoal) ?_ hres r hr hrl
            simp only [bfsMeasure, List.length_append, List.length_cons] at hm ⊢
            omega

/-- C8: with enough fuel for the search to run to completion (any fuel of
at least `bfsMeasure` over a vertex set closed under the adjacency
enumeration), the BFS routine returns the empty sequence iff the target
is unreachable from the source — in particular it returns empty, without
failing, on disconnected components. -/
theorem bfsPath_empty_iff_unreachable (adj : Nat → List Nat) (U : Finset Nat)
    (fuel s goal : Nat) (hU : ∀ u v, v ∈ adj u → v ∈ U)
    (hfuel : bfsMeasure U [[s]] {s} ≤ fuel) :
    bfsPath adj fuel s goal = [] ↔
      ¬∃ r, ValidFrom adj s r ∧ r.getLast? = some goal := by
  constructor
  · intro h hex
    obtain ⟨r, hr, hrl⟩ := hex
    exact bfsAux_nil_unreachable hU fuel [[s]] {s} (bfsInv_init adj s goal)
      hfuel h r hr hrl
  · intro h
    by_contra hne
    have hs := bfsAux_sound fuel [[s]] {s} (bfsInv_init adj s goal) hne
    exact h ⟨_, hs.1, hs.2.1⟩

lemma sampleAdj_closed : ∀ u v, v ∈ sampleAdj u → v ∈ ({0, 1, 2, 3} : Finset Nat) := by
  intro u v hv
  match u with
  | 0 => simp [sampleAdj] at hv; simp [hv]
  | 1 => simp [sampleAdj] at hv; simp [hv]
  | 2 => simp [sampleAdj] at hv; simp [hv]
  | 3 => simp [sampleAdj] at hv; simp [hv]
  | n + 4 =>
      have h : sampleAdj (n + 4) = [] := List.getD_eq_default _ _ (by simp)
      rw [h] at hv
      exact absurd hv (List.not_mem_nil v)

/-- Witness for C10 on the concrete two-component graph. -/
theorem bfsPath_terminates_witness :
    bfsPath sampleAdj 10 0 3
      = bfsPath sampleAdj (bfsMeasure {0, 1, 2, 3} [[0]] {0}) 0 3 :=
  bfsPath_terminates sampleAdj {0, 1, 2, 3} 0 3 10 sampleAdj_closed (by decide)

/-- Witness for C8: source 0 and target 2 lie in different components of
the concrete graph. -/
theorem bfsPath_empty_iff_unreachable_witness :
    bfsPath sampleAdj 5 0 2 = [] ↔
      ¬∃ r, ValidFrom sampleAdj 0 r ∧ r.getLast? = some 2 :=
  bfsPath_empty_iff_unreachable sampleAdj {0, 1, 2, 3} 5 0 2 sampleAdj_closed
    (by decide)

/-- C7: for the unrewired ring lattice with `n = 60` (the line-129
adjacency: each node adjacent to offsets ±1 and ±2 mod 60), the BFS
routine from source 0 to target 30 (the diametrically opposite node,
line 101) returns a path of exactly 15 edges — `len(path) - 1 = 15`,
i.e. 16 nodes. -/
theorem latticeBfs_sixty_fifteen_hops :
    (bfsPath (latticeAdjList 60) 100 0 30).length - 1 = 15 ∧
    bfsPath (latticeAdjList 60) 100 0 30 ≠ [] := by
  decide

end Anim
